import Mathlib

/-!
Shallow embedding of `pyalgotrade/mtgox/tools.py`.

Conventions of the embedding:
* Python floats produced by the fixed-point scaling are modelled as exact
  rationals (`ℚ`); the decimal literals `0.001`, `0.00001`, `0.00000001`
  of the source are the corresponding exact rationals.
* A JSON numeric field that the source coerces with `int(...)` is modelled
  as `Option Int`: `some n` is a well-formed number, `none` is a malformed
  field on which `int(...)` raises (a decode failure).
* Python exceptions are modelled with `Except String`.
* The network is modelled as an oracle passed in as a function: one page
  request (`download_trades_impl`) for a given cursor is
  `Nat → Except String (List RawTrade)`, indexed by the attempt number so
  that retries can observe distinct outcomes.
* The CSV sink (`TradesFile`) is modelled by the trace of file operations
  it performs (header write, row writes, flushes); the walker's writes are
  recorded as the list of batches passed to `addTrades`.
* The unbounded `while` loops of the source are modelled with explicit
  fuel; running out of fuel yields `none`.
-/

namespace MtGox

/-- `str.upper()` restricted to ASCII, as in the currency codes the source
compares against (`Char.toUpper` only maps the basic latin letters). -/
def strUpper (s : String) : String :=
  ⟨s.data.map Char.toUpper⟩

/-- `timestamp_to_tid`: trade ids encode `unixTime * 1000000`. -/
def timestamp_to_tid (unixTime : Int) : Int :=
  unixTime * 1000000

/-- `tid_to_datetime`: the timestamp (in Unix seconds, kept as an exact
rational) recovered from a trade id. -/
def tid_to_datetime (tid : Int) : ℚ :=
  (tid : ℚ) / 1000000

/-- `from_value_int`: currency-dependent fixed-point price scaling. -/
def from_value_int (currency : String) (value_int : Int) : ℚ :=
  let currency := strUpper currency
  if currency ∈ (["JPY", "SEK"] : List String) then (value_int : ℚ) * 0.001
  else if currency = "BTC" then (value_int : ℚ) * 0.00000001
  else (value_int : ℚ) * 0.00001

/-- `from_amount_int`: currency-independent amount scaling. -/
def from_amount_int (value_int : Int) : ℚ :=
  (value_int : ℚ) * 0.00000001

/-- One raw API page entry, with the fields the source reads.  Numeric
fields are `Option Int`: `none` stands for a malformed value on which the
source's `int(...)` coercion raises. -/
structure RawTrade where
  tid : Option Int
  price_currency : String
  price_int : Option Int
  amount_int : Option Int
  trade_type : String
  primary : String
deriving Repr, DecidableEq

/-- The decoded `Trade` value: id, derived timestamp, scaled price and
amount, and the raw trade type. -/
structure Trade where
  tradeId : Int
  dateTime : ℚ
  price : ℚ
  amount : ℚ
  tradeType : String
deriving Repr, DecidableEq

/-- `Trade.__init__`: decode one raw entry; a malformed numeric field is a
decode failure (the `int(...)` coercion raises). -/
def Trade.ofRaw (r : RawTrade) : Except String Trade :=
  match r.tid, r.price_int, r.amount_int with
  | some tid, some price_int, some amount_int =>
    .ok { tradeId := tid
          dateTime := tid_to_datetime tid
          price := from_value_int r.price_currency price_int
          amount := from_amount_int amount_int
          tradeType := r.trade_type }
  | _, _, _ => .error "invalid literal for int()"

/-- The state built by `Trades.__init__`: the kept trades in arrival
order, and the running min-id (`first`) and max-id (`last`) trades. -/
structure TradesState where
  first : Option Trade
  last : Option Trade
  trades : List Trade
deriving Repr, DecidableEq

/-- One loop step of `Trades.__init__` after a successful decode: append
the trade and update the `first`/`last` extremes exactly as the source
does (strict comparisons, so ties keep the earlier arrival). -/
def TradesState.add (st : TradesState) (t : Trade) : TradesState :=
  { first :=
      match st.first with
      | none => some t
      | some f => if t.tradeId < f.tradeId then some t else some f
    last :=
      match st.last with
      | none => some t
      | some l => if t.tradeId > l.tradeId then some t else some l
    trades := st.trades ++ [t] }

/-- The loop of `Trades.__init__`: skip entries whose `primary` field is
not `"Y"`, decode the rest (propagating the first decode failure), and
fold them into the state. -/
def tradesLoop : List RawTrade → TradesState → Except String TradesState
  | [], st => .ok st
  | r :: rest, st =>
    if r.primary ≠ "Y" then tradesLoop rest st
    else
      match Trade.ofRaw r with
      | .error e => .error e
      | .ok t => tradesLoop rest (st.add t)

/-- `Trades.__init__` from the empty state. -/
def Trades.ofRaw (raws : List RawTrade) : Except String TradesState :=
  tradesLoop raws ⟨none, none, []⟩

/-- `trades.getLast().getId()` as used by `download_trades`; the `none`
branch is unreachable there because the source only reads it when the kept
list is non-empty. -/
def TradesState.lastId (st : TradesState) : Int :=
  match st.last with
  | some t => t.tradeId
  | none => 0

/-- Decode a list of raw entries in order, propagating the first failure;
used to specify what `Trades.__init__` keeps. -/
def decodeAll : List RawTrade → Except String (List Trade)
  | [] => .ok []
  | r :: rest =>
    match Trade.ofRaw r with
    | .error e => .error e
    | .ok t =>
      match decodeAll rest with
      | .error e => .error e
      | .ok ts => .ok (t :: ts)

/-- The retry loop of `download_trades_since`: try the fetch; on failure,
raise if the budget is zero, otherwise decrement it and retry.  Returns
the final outcome together with the total number of fetch attempts
(`attempt` is the index of the current attempt, so a caller starts it
at 0). -/
def fetchWithRetries (fetch : Nat → Except String (List RawTrade)) :
    Nat → Nat → Except String (List RawTrade) × Nat
  | attempt, retries =>
    match fetch attempt, retries with
    | .ok r, _ => (.ok r, attempt + 1)
    | .error e, 0 => (.error e, attempt + 1)
    | .error _, retries' + 1 => fetchWithRetries fetch (attempt + 1) retries'

/-- `download_trades_since`: run the fetch with retries, then (outside the
retry loop) build the `Trades` state from the page; a decode failure is
therefore never retried.  Also returns the number of fetch attempts. -/
def download_trades_since (fetch : Nat → Except String (List RawTrade))
    (retries : Nat) : Except String TradesState × Nat :=
  match fetchWithRetries fetch 0 retries with
  | (.error e, n) => (.error e, n)
  | (.ok raws, n) => (Trades.ofRaw raws, n)

/-- How one run of `download_trades` ended: the loop completed, or an
exception unwound out of it. -/
inductive WalkOutcome where
  | finished
  | failed (e : String)
deriving Repr, DecidableEq

/-- The `while not done` loop of `download_trades`.  `getTrades` is one
call to `download_trades_since` for a cursor; `acc` is the list of batches
written to the sink so far (one batch per `tradesFile.addTrades` call).
Fuel exhaustion yields `none`. -/
def download_trades_loop (getTrades : Int → Except String TradesState)
    (tidEnd : Int) :
    Int → List (List Trade) → Nat → Option (List (List Trade) × WalkOutcome)
  | _, _, 0 => none
  | nextTid, acc, fuel + 1 =>
    match getTrades nextTid with
    | .error e => some (acc, .failed e)
    | .ok trades =>
      if trades.trades.isEmpty then some (acc, .finished)
      else if trades.lastId < tidEnd then
        download_trades_loop getTrades tidEnd (trades.lastId + 1)
          (acc ++ [trades.trades]) fuel
      else
        some (acc ++ [trades.trades.filter (fun t => decide (t.tradeId < tidEnd))],
          .finished)

/-- `download_trades`: walk the range `[tidBegin, tidEnd)`, fetching each
page through `download_trades_since` with the default retry budget 3.
`fetchPage tid attempt` is the network's answer to the request
`since=tid` on the given attempt. -/
def download_trades (fetchPage : Int → Nat → Except String (List RawTrade))
    (tidBegin tidEnd : Int) (fuel : Nat) :
    Option (List (List Trade) × WalkOutcome) :=
  download_trades_loop
    (fun tid => (download_trades_since (fetchPage tid) 3).1)
    tidEnd tidBegin [] fuel

/-- The file operations `TradesFile` performs, in order.  Row writes carry
the trade being serialized (the textual formatting is peripheral). -/
inductive FileEvent where
  | writeHeader
  | writeRow (t : Trade)
  | flush
  | close
deriving Repr, DecidableEq

/-- `TradesFile.__init__`: write the header row `id,price,amount,type`
and flush. -/
def TradesFile.openEvents : List FileEvent :=
  [.writeHeader, .flush]

/-- `TradesFile.addTrades`: write one row per trade, then flush once. -/
def TradesFile.addTradesEvents (ts : List Trade) : List FileEvent :=
  ts.map .writeRow ++ [.flush]

/-- The file-operation trace of a whole download run that wrote the given
batches: the open events followed by the events of each `addTrades`
call.  The source never closes the file, so no `close` event exists. -/
def runEvents (batches : List (List Trade)) : List FileEvent :=
  TradesFile.openEvents ++ (batches.map TradesFile.addTradesEvents).flatten

/-- A well-formed mock raw entry for trade id `i` (primary, USD, decodes
without failure). -/
def mkRaw (i : Int) : RawTrade :=
  { tid := some i
    price_currency := "USD"
    price_int := some 100
    amount_int := some 100
    trade_type := "bid"
    primary := "Y" }

/-- The trade `mkRaw i` decodes to. -/
def mkTrade (i : Int) : Trade :=
  { tradeId := i
    dateTime := tid_to_datetime i
    price := from_value_int "USD" 100
    amount := from_amount_int 100
    tradeType := "bid" }

/-- A raw entry mirroring the same trade into a secondary currency
(`primary` is not `"Y"`), which the page filter must drop. -/
def mkRawNonPrimary (i : Int) : RawTrade :=
  { tid := some i
    price_currency := "EUR"
    price_int := some 100
    amount_int := some 100
    trade_type := "bid"
    primary := "N" }

/-- A raw entry with a malformed `tid` field, on which decoding fails. -/
def mkRawBadTid : RawTrade :=
  { tid := none
    price_currency := "USD"
    price_int := some 100
    amount_int := some 100
    trade_type := "bid"
    primary := "Y" }

/-- A well-behaved mock source over a fixed set of trade ids: a request
`since=c` answers with (up to) the first `pageSize` trades of the set
whose id is at least `c`. -/
def mockFetch (ids : List Int) (pageSize : Nat) (c : Int) : List RawTrade :=
  (((ids.filter (fun i => decide (c ≤ i))).take pageSize).map mkRaw)

/-- The mock source as a page oracle for `download_trades` (every attempt
succeeds). -/
def mockFetchPage (ids : List Int) (pageSize : Nat) :
    Int → Nat → Except String (List RawTrade) :=
  fun tid _ => .ok (mockFetch ids pageSize tid)

/-- The kept trades of `download_trades_since` over a never-failing
source. -/
def getTradesNoFail (fetch : Int → List RawTrade) :
    Int → Except String TradesState :=
  fun tid => (download_trades_since (fun _ => .ok (fetch tid)) 3).1

/-- The distinct trade ids at or after cursor `c` among a universe of raw
entries; the termination measure of the walker over a source drawn from
that universe. -/
def tidMeasure (allRaws : List RawTrade) (c : Int) : Nat :=
  ((allRaws.filterMap RawTrade.tid).toFinset.filter (fun i => c ≤ i)).card

/-- Invariant maintained by the loop of `Trades.__init__`: `first`/`last`
are `none` exactly on the empty kept list, and otherwise are members of
the kept list with minimal resp. maximal trade id. -/
def TradesInv (st : TradesState) : Prop :=
  (st.first = none ↔ st.trades = []) ∧
  (st.last = none ↔ st.trades = []) ∧
  (∀ t, st.first = some t →
    t ∈ st.trades ∧ ∀ u ∈ st.trades, t.tradeId ≤ u.tradeId) ∧
  (∀ t, st.last = some t →
    t ∈ st.trades ∧ ∀ u ∈ st.trades, u.tradeId ≤ t.tradeId)

/-! ### Helper lemmas: the walker loop step equations -/

theorem download_trades_loop_ok {getTrades : Int → Except String TradesState}
    {e c : Int} {acc : List (List Trade)} {fuel : Nat} {st : TradesState}
    (h : getTrades c = .ok st) :
    download_trades_loop getTrades e c acc (fuel + 1) =
      if st.trades.isEmpty then some (acc, .finished)
      else if st.lastId < e then
        download_trades_loop getTrades e (st.lastId + 1) (acc ++ [st.trades]) fuel
      else
        some (acc ++ [st.trades.filter fun t => decide (t.tradeId < e)],
          .finished) := by
  simp only [download_trades_loop, h]

theorem download_trades_loop_err {getTrades : Int → Except String TradesState}
    {e c : Int} {acc : List (List Trade)} {fuel : Nat} {msg : String}
    (h : getTrades c = .error msg) :
    download_trades_loop getTrades e c acc (fuel + 1) = some (acc, .failed msg) := by
  simp only [download_trades_loop, h]

theorem getTradesNoFail_eq (fetch : Int → List RawTrade) (tid : Int) :
    getTradesNoFail fetch tid = Trades.ofRaw (fetch tid) := rfl

/-! ### Helper lemmas: ASCII upper-casing -/

theorem charOfNat_toNat {n : Nat} (h : n.isValidChar) : (Char.ofNat n).toNat = n := by
  simp only [Char.ofNat, h, dif_pos, Char.ofNatAux, Char.toNat, UInt32.toNat,
    BitVec.toNat_ofNatLt]

theorem toUpper_toUpper (c : Char) : c.toUpper.toUpper = c.toUpper := by
  unfold Char.toUpper
  by_cases h : c.toNat ≥ 97 ∧ c.toNat ≤ 122
  · have hv : Nat.isValidChar (c.toNat - 32) := Or.inl (by omega)
    rw [if_pos h, charOfNat_toNat hv, if_neg (by omega)]
  · rw [if_neg h, if_neg h]

theorem strUpper_strUpper (s : String) : strUpper (strUpper s) = strUpper s := by
  unfold strUpper
  refine congrArg String.mk ?_
  show (s.data.map Char.toUpper).map Char.toUpper = s.data.map Char.toUpper
  rw [List.map_map]
  exact List.map_congr_left fun c _ => toUpper_toUpper c

/-! ### Helper lemmas: the Trades fold invariant -/

theorem tradesInv_init : TradesInv ⟨none, none, []⟩ := by
  refine ⟨by simp, by simp, ?_, ?_⟩ <;> intro t h <;> simp at h

theorem TradesInv.add {st : TradesState} (h : TradesInv st) (t : Trade) :
    TradesInv (st.add t) := by
  obtain ⟨h1, h2, h3, h4⟩ := h
  refine ⟨?_, ?_, ?_, ?_⟩
  · simp only [TradesState.add]
    cases hf : st.first <;> simp [hf]
    split <;> simp
  · simp only [TradesState.add]
    cases hl : st.last <;> simp [hl]
    split <;> simp
  · intro t' ht'
    simp only [TradesState.add] at ht'
    cases hf : st.first with
    | none =>
      rw [hf] at ht'
      cases ht'
      have htr : st.trades = [] := h1.mp hf
      simp [TradesState.add, htr]
    | some f =>
      simp only [hf] at ht'
      obtain ⟨hfmem, hfmin⟩ := h3 f hf
      by_cases hlt : t.tradeId < f.tradeId
      · rw [if_pos hlt] at ht'
        cases ht'
        constructor
        · simp [TradesState.add]
        · intro u hu
          simp only [TradesState.add, List.mem_append, List.mem_singleton] at hu
          rcases hu with hu | hu
          · exact le_of_lt (lt_of_lt_of_le hlt (hfmin u hu))
          · exact le_of_eq (congrArg Trade.tradeId hu.symm)
      · rw [if_neg hlt] at ht'
        cases ht'
        constructor
        · simp [TradesState.add, hfmem]
        · intro u hu
          simp only [TradesState.add, List.mem_append, List.mem_singleton] at hu
          rcases hu with hu | hu
          · exact hfmin u hu
          · rw [hu]
            exact le_of_not_lt hlt
  · intro t' ht'
    simp only [TradesState.add] at ht'
    cases hl : st.last with
    | none =>
      rw [hl] at ht'
      cases ht'
      have htr : st.trades = [] := h2.mp hl
      simp [TradesState.add, htr]
    | some l =>
      simp only [hl] at ht'
      obtain ⟨hlmem, hlmax⟩ := h4 l hl
      by_cases hgt : t.tradeId > l.tradeId
      · rw [if_pos hgt] at ht'
        cases ht'
        constructor
        · simp [TradesState.add]
        · intro u hu
          simp only [TradesState.add, List.mem_append, List.mem_singleton] at hu
          rcases hu with hu | hu
          · exact le_of_lt (lt_of_le_of_lt (hlmax u hu) hgt)
          · exact le_of_eq (congrArg Trade.tradeId hu)
      · rw [if_neg hgt] at ht'
        cases ht'
        constructor
        · simp [TradesState.add, hlmem]
        · intro u hu
          simp only [TradesState.add, List.mem_append, List.mem_singleton] at hu
          rcases hu with hu | hu
          · exact hlmax u hu
          · rw [hu]
            exact le_of_not_lt hgt

theorem tradesLoop_ok (raws : List RawTrade) :
    ∀ st st', TradesInv st → tradesLoop raws st = .ok st' →
      TradesInv st' ∧
      ∃ ts, decodeAll (raws.filter fun r => r.primary == "Y") = .ok ts ∧
        st'.trades = st.trades ++ ts := by
  induction raws with
  | nil =>
    intro st st' hinv h
    simp only [tradesLoop, Except.ok.injEq] at h
    subst h
    exact ⟨hinv, [], rfl, by simp⟩
  | cons r rest ih =>
    intro st st' hinv h
    simp only [tradesLoop] at h
    by_cases hp : r.primary = "Y"
    · rw [if_neg (by simp [hp])] at h
      cases hd : Trade.ofRaw r with
      | error e => rw [hd] at h; cases h
      | ok t =>
        rw [hd] at h
        obtain ⟨hinv', ts, hdec, htr⟩ := ih (st.add t) st' (hinv.add t) h
        refine ⟨hinv', t :: ts, ?_, ?_⟩
        · rw [List.filter_cons_of_pos (by simp [hp])]
          simp only [decodeAll, hd, hdec]
        · simp only [htr, TradesState.add, List.append_assoc, List.singleton_append]
    · rw [if_pos (by simp [hp])] at h
      obtain ⟨hinv', ts, hdec, htr⟩ := ih st st' hinv h
      refine ⟨hinv', ts, ?_, htr⟩
      rw [List.filter_cons_of_neg (by simp [hp])]
      exact hdec

theorem trades_ofRaw_ok {raws : List RawTrade} {st : TradesState}
    (h : Trades.ofRaw raws = .ok st) :
    TradesInv st ∧
      decodeAll (raws.filter fun r => r.primary == "Y") = .ok st.trades := by
  obtain ⟨hinv, ts, hdec, htr⟩ := tradesLoop_ok raws _ _ tradesInv_init h
  simp only [List.nil_append] at htr
  exact ⟨hinv, htr ▸ hdec⟩

theorem decodeAll_mem {rs : List RawTrade} {ts : List Trade}
    (h : decodeAll rs = .ok ts) {t : Trade} (ht : t ∈ ts) :
    ∃ r ∈ rs, Trade.ofRaw r = .ok t := by
  induction rs generalizing ts with
  | nil =>
    simp only [decodeAll, Except.ok.injEq] at h
    subst h
    cases ht
  | cons r rest ih =>
    simp only [decodeAll] at h
    cases hd : Trade.ofRaw r with
    | error e => rw [hd] at h; cases h
    | ok t0 =>
      rw [hd] at h
      cases hrest : decodeAll rest with
      | error e => rw [hrest] at h; cases h
      | ok ts0 =>
        rw [hrest] at h
        cases h
        cases ht with
        | head => exact ⟨r, List.mem_cons_self r rest, hd⟩
        | tail _ ht =>
          obtain ⟨r', hr', hr'd⟩ := ih hrest ht
          exact ⟨r', List.mem_cons_of_mem r hr', hr'd⟩

theorem Trade.ofRaw_tid {r : RawTrade} {t : Trade} (h : Trade.ofRaw r = .ok t) :
    r.tid = some t.tradeId := by
  obtain ⟨tid, pc, pi, ai, tt, pr⟩ := r
  cases tid with
  | none => cases h
  | some v =>
    cases pi with
    | none => cases h
    | some p =>
      cases ai with
      | none => cases h
      | some a =>
        simp only [Trade.ofRaw, Except.ok.injEq] at h
        subst h
        rfl

/-- If the kept list of a successfully built state is non-empty, `last`
holds a kept trade of maximal id and `lastId` is its id. -/
theorem lastId_spec {raws : List RawTrade} {st : TradesState}
    (h : Trades.ofRaw raws = .ok st) (hne : st.trades ≠ []) :
    ∃ t, st.last = some t ∧ st.lastId = t.tradeId ∧ t ∈ st.trades ∧
      ∀ u ∈ st.trades, u.tradeId ≤ t.tradeId := by
  obtain ⟨⟨_, h2, _, h4⟩, _⟩ := trades_ofRaw_ok h
  cases hl : st.last with
  | none => exact absurd (h2.mp hl) hne
  | some t =>
    obtain ⟨hmem, hmax⟩ := h4 t hl
    exact ⟨t, rfl, by simp [TradesState.lastId, hl], hmem, hmax⟩

/-! ### Helper lemmas: the well-behaved mock source -/

theorem ofRaw_mkRaw (i : Int) : Trade.ofRaw (mkRaw i) = .ok (mkTrade i) := rfl

theorem tradesLoop_mkRaw_cons (i : Int) (rest : List RawTrade) (st : TradesState) :
    tradesLoop (mkRaw i :: rest) st = tradesLoop rest (st.add (mkTrade i)) := rfl

theorem mock_tradesLoop_ok (is : List Int) :
    ∀ st, ∃ st', tradesLoop (is.map mkRaw) st = .ok st' := by
  induction is with
  | nil => intro st; exact ⟨st, rfl⟩
  | cons i rest ih =>
    intro st
    obtain ⟨st', h⟩ := ih (st.add (mkTrade i))
    exact ⟨st', by rw [List.map_cons, tradesLoop_mkRaw_cons]; exact h⟩

theorem filter_primary_mkRaw (is : List Int) :
    (is.map mkRaw).filter (fun r => r.primary == "Y") = is.map mkRaw := by
  rw [List.filter_eq_self]
  intro r hr
  obtain ⟨i, _, rfl⟩ := List.mem_map.mp hr
  rfl

theorem decodeAll_mkRaw (is : List Int) :
    decodeAll (is.map mkRaw) = .ok (is.map mkTrade) := by
  induction is with
  | nil => rfl
  | cons i rest ih => simp only [List.map_cons, decodeAll, ofRaw_mkRaw, ih]

theorem mock_state (is : List Int) :
    ∃ st, Trades.ofRaw (is.map mkRaw) = .ok st ∧ TradesInv st ∧
      st.trades = is.map mkTrade := by
  obtain ⟨st, h⟩ := mock_tradesLoop_ok is ⟨none, none, []⟩
  obtain ⟨hinv, hdec⟩ := trades_ofRaw_ok h
  rw [filter_primary_mkRaw, decodeAll_mkRaw] at hdec
  exact ⟨st, h, hinv, (Except.ok.injEq _ _ ▸ hdec).symm⟩

/-- The main lemma behind the range property: walking from cursor `c` over
the well-behaved mock source writes exactly the in-range ids at or after
`c`, and the loop finishes within fuel exceeding the number of remaining
ids. -/
theorem mock_loop_spec (ids : List Int) (hids : ids.Pairwise (· < ·))
    (n : Nat) (hn : 1 ≤ n) (e : Int) :
    ∀ fuel c acc, (ids.filter fun i => decide (c ≤ i)).length < fuel →
      ∃ B, download_trades_loop (fun tid => Trades.ofRaw (mockFetch ids n tid))
            e c acc fuel = some (B, .finished) ∧
        B.flatten = acc.flatten ++
          (((ids.filter fun i => decide (c ≤ i)).filter
              fun i => decide (i < e)).map mkTrade) := by
  intro fuel
  induction fuel with
  | zero => intro c acc h; omega
  | succ fuel ih =>
    intro c acc hlen
    have hRp : (ids.filter fun i => decide (c ≤ i)).Pairwise (· < ·) :=
      hids.filter _
    obtain ⟨st, hst, hinv, htr⟩ :=
      mock_state ((ids.filter fun i => decide (c ≤ i)).take n)
    have hpage :
        (fun tid => Trades.ofRaw (mockFetch ids n tid)) c = .ok st := hst
    by_cases hR : (ids.filter fun i => decide (c ≤ i)) = []
    · refine ⟨acc, ?_, by simp [hR]⟩
      rw [download_trades_loop_ok hpage]
      have hemp : st.trades.isEmpty = true := by simp [htr, hR]
      rw [if_pos hemp]
    · -- the page is non-empty
      have htake_ne : (ids.filter fun i => decide (c ≤ i)).take n ≠ [] := by
        rw [Ne, List.take_eq_nil_iff]
        push_neg
        exact ⟨by omega, hR⟩
      have htrne : st.trades ≠ [] := by
        rw [htr]
        simpa using htake_ne
      obtain ⟨tmax, hlast, hmid, hmmem, hmmax⟩ := lastId_spec hst htrne
      -- the maximal kept id, at the ids level
      obtain ⟨j, hjmem, hjeq⟩ := List.mem_map.mp (htr ▸ hmmem)
      have hjid : st.lastId = j := by rw [hmid, ← hjeq]; rfl
      have hmax' : ∀ i ∈ (ids.filter fun i => decide (c ≤ i)).take n, i ≤ j := by
        intro i hi
        have : (mkTrade i) ∈ st.trades := htr ▸ List.mem_map_of_mem mkTrade hi
        have := hmmax _ this
        rw [← hjeq] at this
        exact this
      -- the drop part lies strictly above the page maximum
      have hdrop_gt : ∀ b ∈ (ids.filter fun i => decide (c ≤ i)).drop n, j < b := by
        intro b hb
        have hsplit := List.take_append_drop n (ids.filter fun i => decide (c ≤ i))
        have hpw : ((ids.filter fun i => decide (c ≤ i)).take n ++
            (ids.filter fun i => decide (c ≤ i)).drop n).Pairwise (· < ·) := by
          rw [hsplit]; exact hRp
        exact (List.pairwise_append.mp hpw).2.2 j hjmem b hb
      by_cases hml : st.lastId < e
      · -- intermediate page: write it all, advance the cursor
        have hcj : c ≤ j := by
          have := List.mem_filter.mp (List.mem_of_mem_take hjmem)
          simpa using this.2
        have hfilter_next :
            (ids.filter fun i => decide (st.lastId + 1 ≤ i)) =
              (ids.filter fun i => decide (c ≤ i)).drop n := by
          rw [hjid]
          have h1 : (ids.filter fun i => decide (c ≤ i)).filter
              (fun i => decide (j + 1 ≤ i)) =
              ids.filter fun i => decide (j + 1 ≤ i) := by
            rw [List.filter_filter]
            refine List.filter_congr ?_
            intro i _
            by_cases hji : j + 1 ≤ i
            · have : c ≤ i := by omega
              simp [hji, this]
            · simp [hji]
          rw [← h1,
            ← List.take_append_drop n (ids.filter fun i => decide (c ≤ i)),
            List.filter_append]
          have h2 : ((ids.filter fun i => decide (c ≤ i)).take n).filter
              (fun i => decide (j + 1 ≤ i)) = [] := by
            rw [List.filter_eq_nil_iff]
            intro a ha
            have := hmax' a ha
            simp only [decide_eq_true_eq]
            omega
          have h3 : ((ids.filter fun i => decide (c ≤ i)).drop n).filter
              (fun i => decide (j + 1 ≤ i)) =
              (ids.filter fun i => decide (c ≤ i)).drop n := by
            rw [List.filter_eq_self]
            intro a ha
            have := hdrop_gt a ha
            simp only [decide_eq_true_eq]
            omega
          rw [List.take_append_drop, h2, h3, List.nil_append]
        have hlen' :
            (ids.filter fun i => decide (st.lastId + 1 ≤ i)).length < fuel := by
          rw [hfilter_next, List.length_drop]
          have h1 : 1 ≤ (ids.filter fun i => decide (c ≤ i)).length :=
            List.length_pos.mpr hR
          omega
        obtain ⟨B, hB, hBflat⟩ := ih (st.lastId + 1) (acc ++ [st.trades]) hlen'
        refine ⟨B, ?_, ?_⟩
        · rw [download_trades_loop_ok hpage]
          have hemp : st.trades.isEmpty = false := by
            cases h : st.trades with
            | nil => exact absurd h htrne
            | cons a l => rfl
          rw [if_neg (by simp [hemp]), if_pos hml]
          exact hB
        · rw [hBflat, hfilter_next]
          have htake_lt : ((ids.filter fun i => decide (c ≤ i)).take n).filter
              (fun i => decide (i < e)) =
              (ids.filter fun i => decide (c ≤ i)).take n := by
            rw [List.filter_eq_self]
            intro a ha
            have := hmax' a ha
            rw [hjid] at hml
            simp only [decide_eq_true_eq]
            omega
          conv_rhs =>
            rw [← List.take_append_drop n (ids.filter fun i => decide (c ≤ i)),
              List.filter_append, htake_lt, List.map_append]
          simp only [List.flatten_append, List.flatten_cons, List.flatten_nil,
            List.append_nil, List.append_assoc, htr]
      · -- final page: clamp to the upper bound and stop
        have hdrop_ge : ((ids.filter fun i => decide (c ≤ i)).drop n).filter
            (fun i => decide (i < e)) = [] := by
          rw [List.filter_eq_nil_iff]
          intro a ha
          have := hdrop_gt a ha
          rw [hjid] at hml
          simp only [decide_eq_true_eq]
          omega
        refine ⟨acc ++ [st.trades.filter fun t => decide (t.tradeId < e)], ?_, ?_⟩
        · rw [download_trades_loop_ok hpage]
          have hemp : st.trades.isEmpty = false := by
            cases h : st.trades with
            | nil => exact absurd h htrne
            | cons a l => rfl
          rw [if_neg (by simp [hemp]), if_neg hml]
        · rw [htr, List.filter_map]
          have hcomp : ((ids.filter fun i => decide (c ≤ i)).take n).filter
              ((fun t => decide (t.tradeId < e)) ∘ mkTrade) =
              ((ids.filter fun i => decide (c ≤ i)).take n).filter
                (fun i => decide (i < e)) := by
            exact List.filter_congr fun i _ => rfl
          rw [hcomp]
          conv_rhs =>
            rw [← List.take_append_drop n (ids.filter fun i => decide (c ≤ i)),
              List.filter_append, hdrop_ge, List.append_nil]
          simp [List.flatten_append]

/-- The maximal kept id of a successfully built page is the parsed `tid`
of one of the page's raw entries. -/
theorem lastId_provenance {raws : List RawTrade} {st : TradesState}
    (h : Trades.ofRaw raws = .ok st) (hne : st.trades ≠ []) :
    ∃ r ∈ raws, r.tid = some st.lastId := by
  obtain ⟨t, hlast, hid, hmem, _⟩ := lastId_spec h hne
  obtain ⟨_, hdec⟩ := trades_ofRaw_ok h
  obtain ⟨r, hr, hrd⟩ := decodeAll_mem hdec hmem
  exact ⟨r, (List.mem_filter.mp hr).1, by rw [Trade.ofRaw_tid hrd, hid]⟩

/-! ### The claims -/

/-- C1: for every valid range with `b < e`, running `download_trades`
against a well-behaved mock source over a fixed, strictly sorted set of
trade ids writes exactly the trades with `b ≤ id < e` to the sink, each
exactly once, in ascending id order. -/
theorem download_trades_mock_range_exact (ids : List Int) (n : Nat)
    (b e : Int) (fuel : Nat) (hids : ids.Pairwise (· < ·)) (hn : 1 ≤ n)
    (_hbe : b < e) (hfuel : ids.length < fuel) :
    ∃ B, download_trades (mockFetchPage ids n) b e fuel
        = some (B, .finished) ∧
      B.flatten =
        (ids.filter fun i => decide (b ≤ i) && decide (i < e)).map mkTrade ∧
      (B.flatten.map Trade.tradeId).Pairwise (· < ·) ∧
      B.flatten.Nodup := by
  have hlen : (ids.filter fun i => decide (b ≤ i)).length < fuel :=
    lt_of_le_of_lt (List.length_filter_le _ ids) hfuel
  obtain ⟨B, hB, hBflat⟩ := mock_loop_spec ids hids n hn e fuel b [] hlen
  have hfilters :
      ((ids.filter fun i => decide (b ≤ i)).filter fun i => decide (i < e)) =
        ids.filter fun i => decide (b ≤ i) && decide (i < e) := by
    rw [List.filter_filter]
    exact List.filter_congr fun i _ => by
      cases h1 : decide (b ≤ i) <;> cases h2 : decide (i < e) <;> rfl
  have hflat :
      B.flatten =
        (ids.filter fun i => decide (b ≤ i) && decide (i < e)).map mkTrade := by
    rw [hBflat, hfilters, List.flatten_nil, List.nil_append]
  have hpw : (B.flatten.map Trade.tradeId).Pairwise (· < ·) := by
    rw [hflat, List.map_map]
    have : Trade.tradeId ∘ mkTrade = id := rfl
    rw [this, List.map_id]
    exact hids.filter _
  refine ⟨B, ?_, hflat, hpw, ?_⟩
  · show download_trades_loop
        (fun tid => (download_trades_since (mockFetchPage ids n tid) 3).1)
        e b [] fuel = some (B, .finished)
    exact hB
  · have hnd : (B.flatten.map Trade.tradeId).Nodup :=
      hpw.imp ne_of_lt
    exact hnd.of_map _

/-- C2: over a forward-fetching source (every returned entry's id is at
or after the requested cursor), each non-terminal iteration of
`download_trades` advances the cursor to the page's maximal kept id plus
one, that maximum is at least the old cursor, and — the source drawing
its entries from a fixed finite universe — the loop terminates within
fuel exceeding the number of distinct ids at or after the start cursor. -/
theorem download_trades_cursor_progress_and_termination
    (fetch : Int → List RawTrade) (allRaws : List RawTrade) (e : Int)
    (hforward : ∀ c r, r ∈ fetch c → ∀ i, r.tid = some i → c ≤ i)
    (hsub : ∀ c r, r ∈ fetch c → r ∈ allRaws) :
    (∀ c st acc fuel, Trades.ofRaw (fetch c) = .ok st → st.trades ≠ [] →
        st.lastId < e →
        c ≤ st.lastId ∧
        download_trades_loop (getTradesNoFail fetch) e c acc (fuel + 1) =
          download_trades_loop (getTradesNoFail fetch) e (st.lastId + 1)
            (acc ++ [st.trades]) fuel) ∧
    (∀ c acc fuel, tidMeasure allRaws c < fuel →
        download_trades_loop (getTradesNoFail fetch) e c acc fuel ≠ none) := by
  constructor
  · intro c st acc fuel hok hne hlt
    have hle : c ≤ st.lastId := by
      obtain ⟨r, hr, hrt⟩ := lastId_provenance hok hne
      exact hforward c r hr _ hrt
    refine ⟨hle, ?_⟩
    rw [download_trades_loop_ok (show getTradesNoFail fetch c = .ok st from hok)]
    have hemp : st.trades.isEmpty = false := by
      cases hq : st.trades with
      | nil => exact absurd hq hne
      | cons a l => rfl
    rw [if_neg (by simp [hemp]), if_pos hlt]
  · intro c acc fuel
    induction fuel generalizing c acc with
    | zero => intro h; omega
    | succ fuel ih =>
      intro hm
      cases hg : Trades.ofRaw (fetch c) with
      | error msg =>
        rw [download_trades_loop_err
          (show getTradesNoFail fetch c = .error msg from hg)]
        simp
      | ok st =>
        rw [download_trades_loop_ok
          (show getTradesNoFail fetch c = .ok st from hg)]
        by_cases hemp : st.trades.isEmpty = true
        · rw [if_pos hemp]; simp
        · have hne : st.trades ≠ [] := by
            cases hq : st.trades with
            | nil => rw [hq] at hemp; exact absurd rfl hemp
            | cons a l => simp
          by_cases hlt : st.lastId < e
          · rw [if_neg hemp, if_pos hlt]
            apply ih
            obtain ⟨r, hr, hrt⟩ := lastId_provenance hg hne
            have hle : c ≤ st.lastId := hforward c r hr _ hrt
            have hmem : st.lastId ∈ (allRaws.filterMap RawTrade.tid).toFinset := by
              rw [List.mem_toFinset]
              exact List.mem_filterMap.mpr ⟨r, hsub c r hr, hrt⟩
            have hcard : tidMeasure allRaws (st.lastId + 1) < tidMeasure allRaws c := by
              apply Finset.card_lt_card
              constructor
              · intro x hx
                rw [Finset.mem_filter] at hx ⊢
                exact ⟨hx.1, by omega⟩
              · intro hcon
                have h1 : st.lastId ∈
                    (allRaws.filterMap RawTrade.tid).toFinset.filter
                      (fun i => c ≤ i) := Finset.mem_filter.mpr ⟨hmem, hle⟩
                have h2 := hcon h1
                rw [Finset.mem_filter] at h2
                omega
            unfold tidMeasure at hm hcard ⊢
            omega
          · rw [if_neg hemp, if_neg hlt]; simp

/-- C3: when the fetched page's maximal kept id reaches or crosses the
upper bound (including exact equality), the walker writes exactly the
kept trades with `id < tidEnd` and stops. -/
theorem download_trades_final_page_clamp
    (getTrades : Int → Except String TradesState) (e c : Int)
    (acc : List (List Trade)) (fuel : Nat) (st : TradesState)
    (h : getTrades c = .ok st) (hne : st.trades ≠ []) (hge : e ≤ st.lastId) :
    download_trades_loop getTrades e c acc (fuel + 1) =
      some (acc ++ [st.trades.filter fun t => decide (t.tradeId < e)],
        .finished) ∧
    ∀ t, (t ∈ st.trades.filter fun t => decide (t.tradeId < e)) ↔
      t ∈ st.trades ∧ t.tradeId < e := by
  constructor
  · rw [download_trades_loop_ok h]
    have hemp : st.trades.isEmpty = false := by
      cases hq : st.trades with
      | nil => exact absurd hq hne
      | cons a l => rfl
    rw [if_neg (by simp [hemp]), if_neg (by omega)]
  · intro t
    rw [List.mem_filter]
    simp

/-- Witness for C1 at a concrete range and trade set. -/
theorem download_trades_mock_range_exact_witness :
    ∃ B, download_trades (mockFetchPage [100, 200] 1) 50 150 3
        = some (B, .finished) ∧
      B.flatten =
        ([100, 200].filter fun i =>
          decide ((50 : Int) ≤ i) && decide (i < 150)).map mkTrade ∧
      (B.flatten.map Trade.tradeId).Pairwise (· < ·) ∧
      B.flatten.Nodup :=
  download_trades_mock_range_exact [100, 200] 1 50 150 3 (by decide)
    (by decide) (by decide) (by decide)

/-- Witness for C2 at a concrete forward-fetching source. -/
theorem download_trades_cursor_progress_and_termination_witness :
    (50 : Int) ≤ TradesState.lastId
        ⟨some (mkTrade 70), some (mkTrade 70), [mkTrade 70]⟩ ∧
    download_trades_loop
        (getTradesNoFail fun c => if c ≤ 70 then [mkRaw 70] else [])
        100 50 [] 2 =
      download_trades_loop
        (getTradesNoFail fun c => if c ≤ 70 then [mkRaw 70] else [])
        100 71 [[mkTrade 70]] 1 :=
  (download_trades_cursor_progress_and_termination
      (fun c => if c ≤ 70 then [mkRaw 70] else []) [mkRaw 70] 100
      (fun c r hr i hi => by
        have hr2 : r ∈ (if c ≤ 70 then [mkRaw 70] else []) := hr
        by_cases hc : c ≤ 70
        · rw [if_pos hc] at hr2
          cases hr2 with
          | head =>
            simp only [mkRaw, Option.some.injEq] at hi
            omega
          | tail _ h => cases h
        · rw [if_neg hc] at hr2
          cases hr2)
      (fun c r hr => by
        have hr2 : r ∈ (if c ≤ 70 then [mkRaw 70] else []) := hr
        by_cases hc : c ≤ 70
        · rw [if_pos hc] at hr2
          exact hr2
        · rw [if_neg hc] at hr2
          cases hr2)).1 50
    ⟨some (mkTrade 70), some (mkTrade 70), [mkTrade 70]⟩ [] 1 rfl
    (by simp) (by decide)

/-- Witness for C3 at a page whose maximal kept id equals `tidEnd`
exactly. -/
theorem download_trades_final_page_clamp_witness :
    download_trades_loop (fun _ => Trades.ofRaw [mkRaw 5, mkRaw 10]) 10 0 [] 1 =
      some ([[mkTrade 5]], .finished) :=
  (download_trades_final_page_clamp (fun _ => Trades.ofRaw [mkRaw 5, mkRaw 10])
      10 0 [] 0 ⟨some (mkTrade 5), some (mkTrade 10), [mkTrade 5, mkTrade 10]⟩
      rfl (by simp) (by decide)).1.trans rfl

theorem fetchWithRetries_ok {fetch : Nat → Except String (List RawTrade)}
    {attempt : Nat} {page : List RawTrade} (retries : Nat)
    (h : fetch attempt = .ok page) :
    fetchWithRetries fetch attempt retries = (.ok page, attempt + 1) := by
  unfold fetchWithRetries
  rw [h]

theorem fetchWithRetries_err_zero {fetch : Nat → Except String (List RawTrade)}
    {attempt : Nat} {e : String} (h : fetch attempt = .error e) :
    fetchWithRetries fetch attempt 0 = (.error e, attempt + 1) := by
  unfold fetchWithRetries
  rw [h]

theorem fetchWithRetries_err_succ {fetch : Nat → Except String (List RawTrade)}
    {attempt : Nat} {e : String} (r : Nat) (h : fetch attempt = .error e) :
    fetchWithRetries fetch attempt (r + 1) =
      fetchWithRetries fetch (attempt + 1) r := by
  conv_lhs => unfold fetchWithRetries
  rw [h]

theorem fetchWithRetries_all_fail (fetch : Nat → Except String (List RawTrade))
    (errs : Nat → String) (h : ∀ i, fetch i = .error (errs i)) :
    ∀ retries attempt, fetchWithRetries fetch attempt retries =
      (.error (errs (attempt + retries)), attempt + retries + 1) := by
  intro retries
  induction retries with
  | zero =>
    intro attempt
    rw [fetchWithRetries_err_zero (h attempt)]
    simp
  | succ r ih =>
    intro attempt
    rw [fetchWithRetries_err_succ r (h attempt), ih (attempt + 1)]
    have harith : attempt + 1 + r = attempt + (r + 1) := by omega
    rw [harith]

/-- C4: if every fetch attempt fails, `download_trades_since` with budget
`retries` makes exactly `retries + 1` attempts and then propagates the
last failure's error; with the default budget 3 that is 4 attempts. -/
theorem download_trades_since_retry_exhaustion
    (fetch : Nat → Except String (List RawTrade)) (errs : Nat → String)
    (h : ∀ i, fetch i = .error (errs i)) :
    (∀ retries, download_trades_since fetch retries =
      (.error (errs retries), retries + 1)) ∧
    download_trades_since fetch 3 = (.error (errs 3), 4) := by
  have hmain : ∀ retries, download_trades_since fetch retries =
      (.error (errs retries), retries + 1) := by
    intro retries
    simp only [download_trades_since,
      fetchWithRetries_all_fail fetch errs h retries 0, Nat.zero_add]
  exact ⟨hmain, hmain 3⟩

/-- Witness for C4: a source failing on every attempt propagates the error
of the last (fourth) attempt. -/
theorem download_trades_since_retry_exhaustion_witness :
    download_trades_since
        (fun i => .error (if i = 3 then "last" else "earlier")) 3 =
      (.error "last", 4) :=
  ((download_trades_since_retry_exhaustion
      (fun i => .error (if i = 3 then "last" else "earlier"))
      (fun i => if i = 3 then "last" else "earlier")
      (fun _ => rfl)).2).trans rfl

/-- C5: the page filter keeps exactly the entries whose `primary` field is
`"Y"` (in arrival order, decoded); among the kept trades `first` has the
minimal id and `last` the maximal id regardless of input order, and both
are `none` exactly when the kept list is empty. -/
theorem trades_filter_first_last_spec (raws : List RawTrade)
    (st : TradesState) (h : Trades.ofRaw raws = .ok st) :
    decodeAll (raws.filter fun r => r.primary == "Y") = .ok st.trades ∧
    (st.first = none ↔ st.trades = []) ∧
    (st.last = none ↔ st.trades = []) ∧
    (∀ t, st.first = some t →
      t ∈ st.trades ∧ ∀ u ∈ st.trades, t.tradeId ≤ u.tradeId) ∧
    (∀ t, st.last = some t →
      t ∈ st.trades ∧ ∀ u ∈ st.trades, u.tradeId ≤ t.tradeId) := by
  obtain ⟨⟨h1, h2, h3, h4⟩, hdec⟩ := trades_ofRaw_ok h
  exact ⟨hdec, h1, h2, h3, h4⟩

/-- Witness for C5 on a concrete unsorted page with a non-primary
duplicate. -/
theorem trades_filter_first_last_spec_witness :
    decodeAll ([mkRaw 30, mkRawNonPrimary 40, mkRaw 10].filter
        fun r => r.primary == "Y") =
      .ok [mkTrade 30, mkTrade 10] :=
  (trades_filter_first_last_spec [mkRaw 30, mkRawNonPrimary 40, mkRaw 10]
    ⟨some (mkTrade 10), some (mkTrade 30), [mkTrade 30, mkTrade 10]⟩ rfl).1

/-- C6: the record decoder scales price by 0.001 for JPY and SEK, by
0.00000001 for BTC, by 0.00001 for every other currency, scales amount by
0.00000001 independently of currency, and decodes the BTC scenario entry
to id 1000000000000, price 50, amount 1, type bid. -/
theorem record_decoder_scaling_spec :
    (∀ v : Int, from_value_int "JPY" v = (v : ℚ) * 0.001) ∧
    (∀ v : Int, from_value_int "SEK" v = (v : ℚ) * 0.001) ∧
    (∀ v : Int, from_value_int "BTC" v = (v : ℚ) * 0.00000001) ∧
    (∀ (c : String) (v : Int),
      strUpper c ∉ (["JPY", "SEK", "BTC"] : List String) →
      from_value_int c v = (v : ℚ) * 0.00001) ∧
    (∀ v : Int, from_amount_int v = (v : ℚ) * 0.00000001) ∧
    (∃ t, Trade.ofRaw ⟨some 1000000000000, "BTC", some 5000000000,
        some 100000000, "bid", "Y"⟩ = .ok t ∧
      t.tradeId = 1000000000000 ∧ t.price = 50 ∧ t.amount = 1 ∧
      t.tradeType = "bid") := by
  refine ⟨?_, ?_, ?_, ?_, ?_, ?_⟩
  · intro v
    simp only [from_value_int]
    rw [show strUpper "JPY" = "JPY" from rfl, if_pos (by simp)]
  · intro v
    simp only [from_value_int]
    rw [show strUpper "SEK" = "SEK" from rfl, if_pos (by simp)]
  · intro v
    simp only [from_value_int]
    rw [show strUpper "BTC" = "BTC" from rfl, if_neg (by simp),
      if_pos rfl]
  · intro c v hc
    simp only [List.mem_cons, List.not_mem_nil, or_false, not_or] at hc
    obtain ⟨hJ, hS, hB⟩ := hc
    simp only [from_value_int]
    rw [if_neg (by simp [hJ, hS]), if_neg hB]
  · intro v
    rfl
  · refine ⟨_, rfl, rfl, ?_, ?_, rfl⟩
    · show from_value_int "BTC" 5000000000 = 50
      simp only [from_value_int]
      rw [show strUpper "BTC" = "BTC" from rfl, if_neg (by simp), if_pos rfl]
      norm_num
    · show from_amount_int 100000000 = 1
      simp only [from_amount_int]
      norm_num

/-- Witness for C6 at a currency outside the scaling table. -/
theorem record_decoder_scaling_spec_witness :
    from_value_int "usd" 3 = (3 : ℚ) * 0.00001 :=
  record_decoder_scaling_spec.2.2.2.1 "usd" 3 (by decide)

/-- C7: a decode failure is raised immediately as fatal, regardless of the
remaining retry budget (one single fetch attempt, no retry), it aborts the
walker, whereas a transient fetch failure is retried. -/
theorem decode_failure_not_retried :
    (∀ (fetchA : Nat → Except String (List RawTrade))
      (page : List RawTrade) (err : String) (retries : Nat),
      fetchA 0 = .ok page → Trades.ofRaw page = .error err →
      download_trades_since fetchA retries = (.error err, 1)) ∧
    (∀ (fetchA : Nat → Except String (List RawTrade)) (err : String)
      (page : List RawTrade) (retries : Nat),
      fetchA 0 = .error err → fetchA 1 = .ok page →
      download_trades_since fetchA (retries + 1) = (Trades.ofRaw page, 2)) ∧
    (∀ (getTrades : Int → Except String TradesState) (e c : Int)
      (acc : List (List Trade)) (fuel : Nat) (err : String),
      getTrades c = .error err →
      download_trades_loop getTrades e c acc (fuel + 1) =
        some (acc, .failed err)) := by
  refine ⟨?_, ?_, ?_⟩
  · intro fetchA page err retries h0 hdec
    simp only [download_trades_since, fetchWithRetries_ok retries h0, hdec]
  · intro fetchA err page retries h0 h1
    simp only [download_trades_since, fetchWithRetries_err_succ retries h0,
      fetchWithRetries_ok retries h1]
  · intro getTrades e c acc fuel err h
    exact download_trades_loop_err h

/-- Witness for C7: a page with a malformed `tid` fails after exactly one
attempt even with the full default retry budget. -/
theorem decode_failure_not_retried_witness :
    download_trades_since (fun _ => .ok [mkRawBadTid]) 3 =
      (.error "invalid literal for int()", 1) :=
  decode_failure_not_retried.1 (fun _ => .ok [mkRawBadTid]) [mkRawBadTid]
    "invalid literal for int()" 3 rfl rfl

/-- C9: the walker never filters against the lower bound: a page below
`tidEnd` is written whole, and the final page is filtered only against
`tidEnd`; a trade the source returns with id below `tidBegin` is still
written in either case. -/
theorem download_trades_no_lower_bound_filter :
    (∀ (getTrades : Int → Except String TradesState) (e c : Int)
      (acc : List (List Trade)) (fuel : Nat) (st : TradesState),
      getTrades c = .ok st → st.trades ≠ [] → st.lastId < e →
      download_trades_loop getTrades e c acc (fuel + 1) =
        download_trades_loop getTrades e (st.lastId + 1)
          (acc ++ [st.trades]) fuel) ∧
    download_trades
        (fun c _ => if c = 10 then .ok [mkRaw 5, mkRaw 20] else .ok [])
        10 100 5 = some ([[mkTrade 5, mkTrade 20]], .finished) ∧
    download_trades (fun _ _ => .ok [mkRaw 5, mkRaw 150]) 10 100 5 =
      some ([[mkTrade 5]], .finished) ∧
    (mkTrade 5).tradeId < 10 := by
  refine ⟨?_, rfl, rfl, by decide⟩
  intro getTrades e c acc fuel st h hne hlt
  rw [download_trades_loop_ok h]
  have hemp : st.trades.isEmpty = false := by
    cases hq : st.trades with
    | nil => exact absurd hq hne
    | cons a l => rfl
  rw [if_neg (by simp [hemp]), if_pos hlt]

/-- Witness for C9 on a page whose single kept trade lies below the
cursor. -/
theorem download_trades_no_lower_bound_filter_witness :
    download_trades_loop (fun _ => Trades.ofRaw [mkRaw 5]) 100 10 [] 2 =
      download_trades_loop (fun _ => Trades.ofRaw [mkRaw 5]) 100 6
        [[mkTrade 5]] 1 :=
  download_trades_no_lower_bound_filter.1 (fun _ => Trades.ofRaw [mkRaw 5])
    100 10 [] 1 ⟨some (mkTrade 5), some (mkTrade 5), [mkTrade 5]⟩ rfl
    (by simp) (by decide)

/-- C10: price decoding is case-insensitive in the currency code, and in
particular a lowercase jpy receives the JPY scale factor. -/
theorem from_value_int_case_insensitive :
    (∀ (c : String) (v : Int),
      from_value_int c v = from_value_int (strUpper c) v) ∧
    (∀ v : Int, from_value_int "jpy" v = (v : ℚ) * 0.001) := by
  constructor
  · intro c v
    simp only [from_value_int, strUpper_strUpper]
  · intro v
    simp only [from_value_int]
    rw [show strUpper "jpy" = "JPY" from rfl, if_pos (by simp)]

theorem count_flush_addTradesEvents (ts : List Trade) :
    (TradesFile.addTradesEvents ts).count FileEvent.flush = 1 := by
  unfold TradesFile.addTradesEvents
  rw [List.count_append]
  have h1 : (ts.map FileEvent.writeRow).count FileEvent.flush = 0 := by
    rw [List.count_eq_zero]
    intro h
    obtain ⟨t, _, ht⟩ := List.mem_map.mp h
    cases ht
  rw [h1]
  rfl

theorem close_not_mem_runEvents (batches : List (List Trade)) :
    FileEvent.close ∉ runEvents batches := by
  intro h
  unfold runEvents TradesFile.openEvents at h
  rw [List.mem_append] at h
  rcases h with h | h
  · simp at h
  · obtain ⟨l, hl, hcl⟩ := List.mem_flatten.mp h
    obtain ⟨ts, _, rfl⟩ := List.mem_map.mp hl
    unfold TradesFile.addTradesEvents at hcl
    rw [List.mem_append] at hcl
    rcases hcl with hcl | hcl
    · obtain ⟨t, _, ht⟩ := List.mem_map.mp hcl
      cases ht
    · simp at hcl

/-- C8 (amended): every run of the walker produces a sink trace that
starts with the header write followed by a flush, flushes exactly once
per batch write after the rows of that batch, and never closes the file
— also on aborted (failed) runs. -/
theorem trades_file_sink_events
    (fetchPage : Int → Nat → Except String (List RawTrade)) (b e : Int)
    (fuel : Nat) (batches : List (List Trade)) (outcome : WalkOutcome)
    (_h : download_trades fetchPage b e fuel = some (batches, outcome)) :
    (runEvents batches).take 2 = [.writeHeader, .flush] ∧
    (runEvents batches).count .flush = batches.length + 1 ∧
    (∀ ts ∈ batches,
      TradesFile.addTradesEvents ts = ts.map .writeRow ++ [.flush]) ∧
    FileEvent.close ∉ runEvents batches := by
  refine ⟨rfl, ?_, fun ts _ => rfl, close_not_mem_runEvents batches⟩
  unfold runEvents TradesFile.openEvents
  rw [List.count_append]
  have hopen : ([FileEvent.writeHeader, FileEvent.flush] :
      List FileEvent).count FileEvent.flush = 1 := rfl
  rw [hopen]
  have hrest : ∀ bs : List (List Trade),
      ((bs.map TradesFile.addTradesEvents).flatten).count FileEvent.flush =
        bs.length := by
    intro bs
    induction bs with
    | nil => rfl
    | cons ts rest ih =>
      rw [List.map_cons, List.flatten_cons, List.count_append, ih,
        count_flush_addTradesEvents, List.length_cons]
      omega
  rw [hrest]
  omega

/-- Witness for C8 (amended) on a concrete aborted run. -/
theorem trades_file_sink_events_witness :
    (runEvents []).take 2 = [.writeHeader, .flush] ∧
    (runEvents []).count .flush = 1 ∧
    (∀ ts ∈ ([] : List (List Trade)),
      TradesFile.addTradesEvents ts = ts.map .writeRow ++ [.flush]) ∧
    FileEvent.close ∉ runEvents [] :=
  trades_file_sink_events (fun _ _ => .error "network down") 0 100 5 []
    (.failed "network down") rfl

/-- Counterexample to C8 as stated: on an error path the walker aborts,
but the sink trace of the run contains no close operation — the source
never closes the file. -/
theorem trades_file_never_closed_counterexample :
    download_trades (fun _ _ => .error "network down") 0 100 5 =
      some ([], .failed "network down") ∧
    FileEvent.close ∉ runEvents [] :=
  ⟨rfl, by decide⟩

end MtGox
